import Mathlib

/-!
Verification of the fdedupe duplicate-file finder against its specification.

The development shallowly embeds the store layer (src/db.rs), the scan
pipeline (src/scan.rs) and the remover state machine (src/remove.rs) as
executable Lean functions over an explicit store state, and proves the
specification's claims about them.  SQL statements are translated by their
SQLite semantics over a list-of-rows store; machine i64 values are modelled
as unbounded Int except where the i64::MIN sentinel matters, which is kept
explicit.
-/

namespace FDedupe

/-- Boolean test that the string `p` is a prefix of `s`; this is the
semantics of the SQL pattern `escape_like(p) ++ "%"` with `ESCAPE '\'`,
since every metacharacter of `p` is escaped. -/
def strStartsWith (p s : String) : Bool :=
  p.data.isPrefixOf s.data

/-- Remainder of `s` after dropping a leading portion the length of `p`
(used to express the SQL pattern `escape_like(p) ++ "%/%"`: a further `/`
occurs after the prefix). -/
def strRest (p s : String) : List Char :=
  s.data.drop p.data.length

/-- Removal of all trailing `/` characters, the semantics of Rust's
`trim_end_matches('/')`. -/
def trimEndSlashes (s : String) : String :=
  String.mk ((s.data.reverse.dropWhile (fun c => c = '/')).reverse)

/-- Row of the `directories` table (src/db.rs `DirectoryRow`). -/
structure DirectoryRow where
  id : Nat
  canonical_path : String
  last_scanned : Option Int
deriving DecidableEq, Repr

/-- Row of the `files` table (src/db.rs `FileRow`). -/
structure FileRow where
  id : Nat
  directory_id : Nat
  name : String
  canonical_path : String
  size : Int
  modified_at : Int
  fast_hash : Option String
  full_hash : Option String
deriving DecidableEq, Repr

/-- Row of the `rules` table (src/db.rs `RuleRow`). -/
structure RuleRow where
  id : Nat
  pattern : String
  priority : Int
deriving DecidableEq, Repr

/-- Derived duplicate group (src/db.rs `DuplicateGroup`). -/
structure DuplicateGroup where
  full_hash : String
  files : List FileRow
deriving DecidableEq, Repr

/-- State of the SQLite database: the three tables created by
`create_schema` in src/db.rs. -/
structure Store where
  directories : List DirectoryRow
  files : List FileRow
  rules : List RuleRow
deriving DecidableEq, Repr

/-- Store produced by `Db::open` on a fresh database file: the schema with
no rows. -/
def emptyStore : Store := ⟨[], [], []⟩

/-- Lookup `SELECT ... FROM directories WHERE canonical_path = ?1`
(src/db.rs `get_directory`). -/
def get_directory (st : Store) (p : String) : Option DirectoryRow :=
  st.directories.find? (fun d => d.canonical_path = p)

/-- Largest id in use, for modelling SQLite's `INTEGER PRIMARY KEY`
auto-assignment (one more than the largest existing rowid). -/
def maxId (ids : List Nat) : Nat :=
  ids.foldl max 0

/-- Translation of `upsert_directory` (src/db.rs): `INSERT OR IGNORE` then
`SELECT id`; an existing row, including its `last_scanned`, is untouched. -/
def upsert_directory (st : Store) (p : String) : Store × Nat :=
  match get_directory st p with
  | some d => (st, d.id)
  | none =>
    let nid := maxId (st.directories.map (·.id)) + 1
    ({ st with directories := st.directories ++ [⟨nid, p, none⟩] }, nid)

/-- Translation of `set_directory_scanned` (src/db.rs): `UPDATE directories
SET last_scanned = ?1 WHERE id = ?2`. -/
def set_directory_scanned (st : Store) (did : Nat) (ts : Int) : Store :=
  { st with directories := st.directories.map (fun d =>
      if d.id = did then { d with last_scanned := some ts } else d) }

/-- Translation of `child_directories` (src/db.rs): rows whose path matches
`LIKE prefix%` but not `LIKE prefix%/%`, i.e. direct children only, where
`prefix` is the parent with trailing slashes trimmed plus `/`. -/
def child_directories (st : Store) (parent : String) : List DirectoryRow :=
  let pfx := trimEndSlashes parent ++ "/"
  st.directories.filter (fun d =>
    strStartsWith pfx d.canonical_path &&
    !((strRest pfx d.canonical_path).any (fun c => c = '/')))

/-- Translation of `files_in_directory` (src/db.rs): `SELECT ... FROM files
WHERE directory_id = ?1`. -/
def files_in_directory (st : Store) (did : Nat) : List FileRow :=
  st.files.filter (fun f => f.directory_id = did)

/-- Translation of `upsert_file` (src/db.rs): an `INSERT` with
`ON CONFLICT(canonical_path) DO UPDATE` resolving only collisions on
`canonical_path`; a violation of `UNIQUE(directory_id, name)`, whether by
the insert or by the conflict-clause update, fails the statement.  The id
returned by the follow-up `SELECT` is not used by any caller and is not
modelled. -/
def upsert_file (st : Store) (did : Nat) (name cpath : String)
    (size modified_at : Int) (fastHash fullHash : Option String) :
    Except String Store :=
  match st.files.find? (fun f => f.canonical_path = cpath) with
  | some r =>
    if st.files.any (fun f =>
        f.id ≠ r.id && f.directory_id = did && f.name = name) then
      Except.error "UNIQUE constraint failed: files.directory_id, files.name"
    else
      Except.ok { st with files := st.files.map (fun f =>
        if f.id = r.id then
          { f with directory_id := did, name := name, size := size,
                   modified_at := modified_at, fast_hash := fastHash,
                   full_hash := fullHash }
        else f) }
  | none =>
    if st.files.any (fun f => f.directory_id = did && f.name = name) then
      Except.error "UNIQUE constraint failed: files.directory_id, files.name"
    else
      let nid := maxId (st.files.map (·.id)) + 1
      Except.ok { st with files := st.files ++
        [⟨nid, did, name, cpath, size, modified_at, fastHash, fullHash⟩] }

/-- Translation of `update_fast_hash` (src/db.rs): `UPDATE files SET
fast_hash = ?1, full_hash = NULL WHERE id = ?2`. -/
def update_fast_hash (st : Store) (fid : Nat) (d : String) : Store :=
  { st with files := st.files.map (fun f =>
      if f.id = fid then { f with fast_hash := some d, full_hash := none }
      else f) }

/-- Translation of `update_full_hash` (src/db.rs): `UPDATE files SET
full_hash = ?1 WHERE id = ?2`. -/
def update_full_hash (st : Store) (fid : Nat) (d : String) : Store :=
  { st with files := st.files.map (fun f =>
      if f.id = fid then { f with full_hash := some d } else f) }

/-- Translation of `delete_file` (src/db.rs): `DELETE FROM files WHERE
id = ?1`. -/
def delete_file (st : Store) (fid : Nat) : Store :=
  { st with files := st.files.filter (fun f => f.id ≠ fid) }

/-- Translation of `delete_file_by_path` (src/db.rs): `DELETE FROM files
WHERE canonical_path = ?1`. -/
def delete_file_by_path (st : Store) (p : String) : Store :=
  { st with files := st.files.filter (fun f => f.canonical_path ≠ p) }

/-- Modelled from the spec: `delete_directory_tree(canonical)` "removes the
directory and all descendant directories and their files" (spec §4.2);
src/src/scan.rs calls this store method but src/src/db.rs does not define
it, so the definition follows the spec's words, with the files removed by
the `ON DELETE CASCADE` foreign key. -/
def delete_directory_tree (st : Store) (p : String) : Store :=
  let dead := fun (d : DirectoryRow) =>
    d.canonical_path = p ||
      strStartsWith (trimEndSlashes p ++ "/") d.canonical_path
  let deadIds := (st.directories.filter dead).map (·.id)
  { st with
    directories := st.directories.filter (fun d => !(dead d)),
    files := st.files.filter (fun f =>
      !(deadIds.any (fun i => i = f.directory_id))) }

/-- Count of rows sharing a given `(size, fast_hash)` pair with a non-null
fast hash: the grouped subquery of `candidates_needing_full_hash`. -/
def sameSizeFastCount (st : Store) (size : Int) (h : String) : Nat :=
  (st.files.filter (fun g => g.fast_hash = some h && g.size = size)).length

/-- Translation of `candidates_needing_full_hash` (src/db.rs): rows with
`full_hash IS NULL`, `fast_hash IS NOT NULL`, `size > 0`, whose
`(size, fast_hash)` pair lies in a group of more than one row. -/
def candidates_needing_full_hash (st : Store) : List FileRow :=
  st.files.filter (fun f =>
    f.full_hash = none && f.fast_hash.isSome && f.size > 0 &&
    (match f.fast_hash with
     | some h => sameSizeFastCount st f.size h > 1
     | none => false))

/-- Predicate of the grouped subquery shared by the duplicate queries: the
`full_hash` value appears on more than one row. -/
def fullHashShared (st : Store) (h : String) : Bool :=
  (st.files.filter (fun g => g.full_hash = some h)).length > 1

/-- Row predicate of `duplicate_stats_under` (src/db.rs): `full_hash IS NOT
NULL`, the path matches `LIKE escape_like(pfx) ++ "%"` or
`LIKE escape_like(trim(pfx) ++ "/") ++ "%"`, and the full hash is shared
store-wide. -/
def dupUnderPred (st : Store) (pfx : String) (f : FileRow) : Bool :=
  f.full_hash.isSome &&
  (strStartsWith pfx f.canonical_path ||
    strStartsWith (trimEndSlashes pfx ++ "/") f.canonical_path) &&
  (match f.full_hash with
   | some h => fullHashShared st h
   | none => false)

/-- Translation of `duplicate_stats_under` (src/db.rs): `COUNT(*)` and
`COALESCE(SUM(size), 0)` over the rows selected by `dupUnderPred`. -/
def duplicate_stats_under (st : Store) (pfx : String) : Int × Int :=
  let sel := st.files.filter (dupUnderPred st pfx)
  ((sel.length : Int), (sel.map (·.size)).sum)

/-- Statement of the spec's words for `duplicate_stats_under` ("counts
files whose canonical path lies at or under the given prefix (either the
prefix itself or the prefix followed by `/`)"), used to compare the source
translation against the claim. -/
def duplicate_stats_under_spec (st : Store) (pfx : String) : Int × Int :=
  let sel := st.files.filter (fun f =>
    f.full_hash.isSome &&
    (f.canonical_path = pfx || strStartsWith (pfx ++ "/") f.canonical_path) &&
    (match f.full_hash with
     | some h => fullHashShared st h
     | none => false))
  ((sel.length : Int), (sel.map (·.size)).sum)

/-- Translation of `insert_rule` (src/db.rs): `INSERT INTO rules(pattern,
priority) VALUES(?1, ?2)`. -/
def insert_rule (st : Store) (pat : String) (pr : Int) : Store :=
  { st with rules := st.rules ++ [⟨maxId (st.rules.map (·.id)) + 1, pat, pr⟩] }

/-! Scan pipeline (src/scan.rs).  Filesystem enumeration and hashing are the
external collaborators: a directory's enumeration result is a value of
`FsDir` already filtered by the hidden/include/exclude/symlink policies
(src/scan.rs `enumerate_dir`), the whole filesystem is a partial map from
canonical directory path to that result (`none` models a readdir failure),
and the two hash primitives are partial maps from path to digest (`none`
models an I/O failure).  Stat metadata is carried on the enumerated file,
matching the successful branch of `std::fs::metadata`. -/

/-- Enumerated regular file: local name, canonical path, and the size and
modified-at seconds obtained from `stat`. -/
structure FsFile where
  name : String
  path : String
  size : Int
  mtime : Int
deriving DecidableEq, Repr

/-- Enumeration result of one directory (src/scan.rs `enumerate_dir`):
regular files and canonical subdirectory paths. -/
structure FsDir where
  files : List FsFile
  subdirs : List String
deriving DecidableEq, Repr

/-- Hidden-name policy (src/scan.rs `ScanOptions::is_hidden`). -/
def isHidden (name : String) : Bool :=
  name.startsWith "."

/-- Deletion-detection pass (src/scan.rs lines 111-122): rows of the
directory snapshot whose name was not enumerated are deleted, except that
hidden-named rows are exempt when hidden files are not being scanned. -/
def deletePass (hidden : Bool) (dbFiles : List FileRow)
    (fsNames : List String) (st : Store) : Store :=
  dbFiles.foldl (fun s r =>
    if !hidden && isHidden r.name then s
    else if fsNames.any (fun n => n = r.name) then s
    else delete_file s r.id) st

/-- Subdirectory deletion-detection pass (src/scan.rs lines 124-132):
stored child directories absent from the enumerated subdirectories are
removed with their subtrees. -/
def subdirPass (dp : String) (fsSubdirs : List String) (st : Store) : Store :=
  (child_directories st dp).foldl (fun s child =>
    if fsSubdirs.any (fun n => n = child.canonical_path) then s
    else delete_directory_tree s child.canonical_path) st

/-- Per-file pass (src/scan.rs lines 134-178): each enumerated file is
looked up by name in the directory snapshot; an identical `(size,
modified_at)` pair means unchanged (no hashing, no write); otherwise the
fast hash is computed (counted) and, on success, the row is upserted with
the full hash cleared; a fast-hash failure is logged and skipped.  A store
error aborts via `?`. -/
def filePass (fastH : String → Option String) (did : Nat)
    (dbFiles : List FileRow) (fsFiles : List FsFile) (st : Store) :
    Except String (Store × Nat) :=
  fsFiles.foldlM (fun (acc : Store × Nat) f =>
    match dbFiles.find? (fun r => r.name = f.name) with
    | some r =>
      if r.size = f.size && r.modified_at = f.mtime then
        Except.ok acc
      else
        match fastH f.path with
        | some fh =>
          (upsert_file acc.1 did f.name f.path f.size f.mtime
            (some fh) none).map (fun s => (s, acc.2 + 1))
        | none => Except.ok (acc.1, acc.2 + 1)
    | none =>
      match fastH f.path with
      | some fh =>
        (upsert_file acc.1 did f.name f.path f.size f.mtime
          (some fh) none).map (fun s => (s, acc.2 + 1))
      | none => Except.ok (acc.1, acc.2 + 1)) (st, 0)

/-- Stage-2 pass (src/scan.rs lines 180-194): the store-wide candidate
list is computed once, then each candidate's full hash is computed
(counted) and written on success; a hash failure is logged and skipped. -/
def fullPass (fullH : String → Option String) (st : Store) : Store × Nat :=
  (candidates_needing_full_hash st).foldl (fun acc r =>
    match fullH r.canonical_path with
    | some fh => (update_full_hash acc.1 r.id fh, acc.2 + 1)
    | none => (acc.1, acc.2 + 1)) (st, 0)

/-- Outcome of processing one dequeued directory: the store, the number of
fast-hash and of full-hash computations performed, and the subdirectories
enqueued when recursive. -/
structure ScanOut where
  store : Store
  fastN : Nat
  fullN : Nat
  queued : List String
deriving DecidableEq, Repr

/-- Body of the scan loop for one dequeued directory (src/scan.rs `run`,
lines 88-205): directory upsert, the skip decision, enumeration (a readdir
failure propagates via `?` at line 105), the deletion-detection passes,
the per-file pass, the stage-2 pass, and the scanned-timestamp update.  On
the skip path `enqueue_subdirs` re-enumerates the directory, ignoring a
readdir failure. -/
def scanDirStep (hidden recursive rescan : Bool)
    (fastH fullH : String → Option String) (fsMap : String → Option FsDir)
    (now : Int) (st : Store) (dp : String) : Except String ScanOut :=
  let up := upsert_directory st dp
  let dirRow := (get_directory up.1 dp).getD ⟨up.2, dp, none⟩
  if dirRow.last_scanned.isSome && !rescan then
    Except.ok ⟨up.1, 0, 0,
      if recursive then ((fsMap dp).map (·.subdirs)).getD [] else []⟩
  else
    match fsMap dp with
    | none => Except.error ("reading directory " ++ dp)
    | some d =>
      let dbFiles := files_in_directory up.1 up.2
      let st2 := deletePass hidden dbFiles (d.files.map (·.name)) up.1
      let st3 := subdirPass dp d.subdirs st2
      match filePass fastH up.2 dbFiles d.files st3 with
      | Except.error e => Except.error e
      | Except.ok (st4, fastN) =>
        let fp := fullPass fullH st4
        Except.ok ⟨set_directory_scanned fp.1 up.2 now, fastN, fp.2,
          if recursive then d.subdirs else []⟩

/-- Scan run over an explicit work queue with `recursive = false` (no
enqueueing), processing dequeued directories in order; any error from a
directory's step aborts the remaining queue (src/scan.rs `run`). -/
def scanRunQueue (hidden rescan : Bool)
    (fastH fullH : String → Option String) (fsMap : String → Option FsDir)
    (now : Int) : Store → List String → Except String Store
  | st, [] => Except.ok st
  | st, dp :: rest =>
    match scanDirStep hidden false rescan fastH fullH fsMap now st dp with
    | Except.error e => Except.error e
    | Except.ok out => scanRunQueue hidden rescan fastH fullH fsMap now out.store rest

/-! Remover (src/remove.rs).  Glob matching comes from the external
`globset` crate and is abstracted as a Boolean matcher from pattern and
canonical path; a pattern whose compilation fails behaves as matching
nothing, which a matcher value can also express.  Terminal drawing is pure
presentation and is not modelled; key events drive the state machine. -/

/-- Per-file action (src/remove.rs `FileAction`). -/
inductive FileAction where
  | keep
  | delete
  | undecided
deriving DecidableEq, Repr

/-- Input mode of the add-rule prompt (src/remove.rs `InputMode`). -/
inductive InputMode where
  | rulePattern
  | rulePriority
deriving DecidableEq, Repr

/-- Per-group interactive state (src/remove.rs `GroupState`); the list
selection index stands for `ListState::selected`. -/
structure GroupState where
  files : List FileRow
  actions : List FileAction
  selected : Nat
  input_mode : Option InputMode
  rule_pattern : String
  rule_priority : String
  status_msg : String
deriving DecidableEq, Repr

/-- Construction of the state for a fresh group (src/remove.rs
`GroupState::new`). -/
def GroupState.new (g : DuplicateGroup) : GroupState :=
  ⟨g.files, List.replicate g.files.length FileAction.undecided, 0, none, "", "", ""⟩

/-- Value of Rust's `i64::MIN`, the sentinel score of a file matched by no
rule (src/remove.rs line 96). -/
def i64Min : Int := -(2 ^ 63)

/-- Semantics of `Iterator::max().unwrap_or(d)` on a list of integers. -/
def listMaxD (l : List Int) (d : Int) : Int :=
  match l with
  | [] => d
  | x :: xs => xs.foldl max x

/-- Score of one file under a rule list (src/remove.rs lines 77-98): the
maximum priority of the rules whose pattern matches the canonical path, or
`i64::MIN` when none matches. -/
def score (gm : String → String → Bool) (rules : List RuleRow)
    (f : FileRow) : Int :=
  listMaxD ((rules.filter (fun r => gm r.pattern f.canonical_path)).map
    (·.priority)) i64Min

/-- Decision predicate (src/remove.rs `is_decided`): at least one `Keep`
and at least one `Delete`. -/
def is_decided (gs : GroupState) : Bool :=
  gs.actions.any (fun a => a = FileAction.keep) &&
  gs.actions.any (fun a => a = FileAction.delete)

/-- Rule-based auto-resolution (src/remove.rs `apply_rules`): with no
rules, return at once; otherwise score every file, and when exactly one
entry of the score list attains its maximum, assign `Keep` to it and
`Delete` to the rest. -/
def apply_rules (gm : String → String → Bool) (rules : List RuleRow)
    (gs : GroupState) : GroupState :=
  if rules = [] then gs
  else
    let scored := gs.files.map (score gm rules)
    let maxScore := listMaxD scored i64Min
    let maxCount := (scored.filter (fun s => s = maxScore)).length
    if maxCount = 1 then
      { gs with
        actions := scored.map (fun s =>
          if s = maxScore then FileAction.keep else FileAction.delete)
        status_msg := "Auto-resolved by priority rule." }
    else gs

/-- Statement of the spec's words for auto-resolution, used to compare the
source translation against the claim: each file's score is the maximum
priority of any matching rule or negative infinity (`⊥` of `WithBot Int`)
when none matches, and the group is decided exactly when one file attains
the unique maximum score. -/
def apply_rules_spec (gm : String → String → Bool) (rules : List RuleRow)
    (gs : GroupState) : GroupState :=
  let sc := fun (f : FileRow) =>
    ((rules.filter (fun r => gm r.pattern f.canonical_path)).map
      (fun r => (r.priority : WithBot Int))).foldl max ⊥
  let scored := gs.files.map sc
  let maxScore := scored.foldl max ⊥
  if (scored.filter (fun s => s = maxScore)).length = 1 then
    { gs with actions := scored.map (fun s =>
        if s = maxScore then FileAction.keep else FileAction.delete) }
  else gs

/-- Selection movement (src/remove.rs `move_selection`): the new index is
clamped to `[0, len - 1]` in signed arithmetic. -/
def move_selection (gs : GroupState) (delta : Int) : GroupState :=
  { gs with selected :=
      (max 0 (min ((gs.selected : Int) + delta)
        ((gs.files.length : Int) - 1))).toNat }

/-- Mark-delete (src/remove.rs `mark_delete`): the selected file becomes
`Delete`, every other file `Keep`. -/
def mark_delete (gs : GroupState) : GroupState :=
  { gs with actions := (List.range gs.actions.length).map (fun i =>
      if i = gs.selected then FileAction.delete else FileAction.keep) }

/-- Mark-keep (src/remove.rs `mark_keep`): the selected file becomes
`Keep`, every other file `Delete`. -/
def mark_keep (gs : GroupState) : GroupState :=
  { gs with actions := (List.range gs.actions.length).map (fun i =>
      if i = gs.selected then FileAction.keep else FileAction.delete) }

/-- Digit characters of a string interpreted in base ten. -/
def digitsVal (cs : List Char) : Nat :=
  cs.foldl (fun n c => n * 10 + (c.toNat - '0'.toNat)) 0

/-- Semantics of Rust's `str::parse::<i64>()` on the strings the priority
prompt can hold (an optional sign followed by ASCII digits): `none` on an
empty or malformed or out-of-range string. -/
def parseI64 (s : String) : Option Int :=
  match s.data with
  | [] => none
  | '-' :: ds =>
    if ds ≠ [] && ds.all Char.isDigit && (digitsVal ds : Int) ≤ 2 ^ 63 then
      some (-(digitsVal ds : Int))
    else none
  | '+' :: ds =>
    if ds ≠ [] && ds.all Char.isDigit && (digitsVal ds : Int) < 2 ^ 63 then
      some (digitsVal ds : Int)
    else none
  | ds =>
    if ds.all Char.isDigit && (digitsVal ds : Int) < 2 ^ 63 then
      some (digitsVal ds : Int)
    else none

/-- Key events relevant to the remover loop (crossterm `KeyCode`). -/
inductive Key where
  | up
  | down
  | enter
  | esc
  | backspace
  | char (c : Char)
  | otherKey
deriving DecidableEq, Repr

/-- Result of one group's interactive loop (src/remove.rs `GroupResult`). -/
inductive GroupResult where
  | confirm
  | skip
  | quit
deriving DecidableEq, Repr

/-- Output of one key-handling step of `group_loop`: the store (a rule may
have been inserted), the in-memory rule list, the group state, and the
loop result when the key ended the group. -/
structure GStepOut where
  store : Store
  rules : List RuleRow
  gs : GroupState
  res : Option GroupResult
deriving DecidableEq, Repr

/-- Key handling of one iteration of `group_loop` (src/remove.rs lines
299-375): input-mode editing of the add-rule prompt, rule persistence and
re-resolution on its final Enter, and the normal-mode bindings, where
Enter on a decided group and Space on a decided group confirm. -/
def groupStep (gm : String → String → Bool) (st : Store)
    (rules : List RuleRow) (gs : GroupState) (k : Key) : GStepOut :=
  match gs.input_mode with
  | some m =>
    match k with
    | Key.esc =>
      ⟨st, rules, { gs with input_mode := none
                            rule_pattern := ""
                            rule_priority := "" }, none⟩
    | Key.enter =>
      match m with
      | InputMode.rulePattern =>
        if gs.rule_pattern ≠ "" then
          ⟨st, rules, { gs with input_mode := some InputMode.rulePriority }, none⟩
        else ⟨st, rules, gs, none⟩
      | InputMode.rulePriority =>
        let pr := (parseI64 gs.rule_priority).getD 0
        let st' := insert_rule st gs.rule_pattern pr
        let rules' := rules ++ [⟨0, gs.rule_pattern, pr⟩]
        let gs' := { gs with status_msg := "Rule added: " ++ gs.rule_pattern
                             input_mode := none
                             rule_pattern := ""
                             rule_priority := "" }
        ⟨st', rules', apply_rules gm rules' gs', none⟩
    | Key.backspace =>
      match m with
      | InputMode.rulePattern =>
        let t := String.mk gs.rule_pattern.data.dropLast
        ⟨st, rules, { gs with rule_pattern := t }, none⟩
      | InputMode.rulePriority =>
        let t := String.mk gs.rule_priority.data.dropLast
        ⟨st, rules, { gs with rule_priority := t }, none⟩
    | Key.char c =>
      match m with
      | InputMode.rulePattern =>
        ⟨st, rules, { gs with rule_pattern := gs.rule_pattern.push c }, none⟩
      | InputMode.rulePriority =>
        if c.isDigit || (c = '-' && gs.rule_priority = "") then
          ⟨st, rules, { gs with rule_priority := gs.rule_priority.push c }, none⟩
        else ⟨st, rules, gs, none⟩
    | _ => ⟨st, rules, gs, none⟩
  | none =>
    match k with
    | Key.esc => ⟨st, rules, gs, some GroupResult.quit⟩
    | Key.up => ⟨st, rules, move_selection gs (-1), none⟩
    | Key.down => ⟨st, rules, move_selection gs 1, none⟩
    | Key.enter =>
      if is_decided gs then ⟨st, rules, gs, some GroupResult.confirm⟩
      else ⟨st, rules, mark_delete gs, none⟩
    | Key.char c =>
      if c = 'q' then ⟨st, rules, gs, some GroupResult.quit⟩
      else if c = 's' then ⟨st, rules, gs, some GroupResult.skip⟩
      else if c = 'k' then ⟨st, rules, mark_keep gs, none⟩
      else if c = 'd' then ⟨st, rules, mark_delete gs, none⟩
      else if c = 'r' then
        ⟨st, rules, { gs with input_mode := some InputMode.rulePattern }, none⟩
      else if c = ' ' && is_decided gs then
        ⟨st, rules, gs, some GroupResult.confirm⟩
      else ⟨st, rules, gs, none⟩
    | _ => ⟨st, rules, gs, none⟩

/-- The world the remover mutates: the store and the set of filesystem
paths that exist. -/
structure World where
  store : Store
  fs : List String
deriving DecidableEq, Repr

/-- Commit of a confirmed group (src/remove.rs lines 173-191): with
`dry_run` both operations are skipped; otherwise each `Delete`-marked path
is removed from the filesystem and, only when that removal succeeded, its
store row is deleted. -/
def commitGroup (dry : Bool) (gs : GroupState) (w : World) : World :=
  let toDelete := ((gs.files.zip gs.actions).filter
    (fun p => p.2 = FileAction.delete)).map (fun p => p.1.canonical_path)
  if dry then w
  else
    toDelete.foldl (fun w p =>
      if w.fs.any (fun q => q = p) then
        ⟨delete_file_by_path w.store p, w.fs.filter (fun q => q ≠ p)⟩
      else w) w

/-- Configuration of the remover run: the world, the in-memory rule list,
the groups still pending (the head is being presented), and the state of
the presented group (`none` once the run is over). -/
structure RemCfg where
  world : World
  rules : List RuleRow
  pending : List DuplicateGroup
  cur : Option GroupState
deriving DecidableEq, Repr

/-- Advance to the next pending group, running auto-resolution on it
(src/remove.rs lines 165-168), or stop when none is left. -/
def remAdvance (gm : String → String → Bool) (w : World)
    (rules : List RuleRow) (rest : List DuplicateGroup) : RemCfg :=
  match rest with
  | [] => ⟨w, rules, [], none⟩
  | g :: _ => ⟨w, rules, rest, some (apply_rules gm rules (GroupState.new g))⟩

/-- One key event of `run_loop` (src/remove.rs lines 154-201): the key is
handled by the current group's loop; a `Confirm` commits the group and
advances, a `Skip` advances, a `Quit` ends the run. -/
def remStep (gm : String → String → Bool) (dry : Bool) (c : RemCfg)
    (k : Key) : RemCfg :=
  match c.cur, c.pending with
  | some gs, _ :: rest =>
    let q := groupStep gm c.world.store c.rules gs k
    let w1 : World := ⟨q.store, c.world.fs⟩
    match q.res with
    | none => ⟨w1, q.rules, c.pending, some q.gs⟩
    | some GroupResult.confirm => remAdvance gm (commitGroup dry q.gs w1) q.rules rest
    | some GroupResult.skip => remAdvance gm w1 q.rules rest
    | some GroupResult.quit => ⟨w1, q.rules, [], none⟩
  | _, _ => c

/-- Starting configuration of a remover run over the given groups with the
rules loaded from the store (src/remove.rs `run`). -/
def remInit (gm : String → String → Bool) (w : World) (rules : List RuleRow)
    (groups : List DuplicateGroup) : RemCfg :=
  remAdvance gm w rules groups

/-- A whole remover run: the key events consumed in order. -/
def remRun (gm : String → String → Bool) (dry : Bool) (c : RemCfg)
    (keys : List Key) : RemCfg :=
  keys.foldl (remStep gm dry) c

/-! Derived predicates used to state the claims. -/

/-- Well-formedness maintained by the SQLite primary key: the file rows
carry pairwise distinct ids. -/
def IdsNodup (st : Store) : Prop :=
  (st.files.map (·.id)).Nodup

/-- File invariant of the spec (§3, §8.1): a present full hash implies a
present fast hash. -/
def FileInv (st : Store) : Prop :=
  ∀ f ∈ st.files, f.full_hash.isSome = true → f.fast_hash.isSome = true

/-- Selection predicate of `duplicate_stats_under` in the claim's
vocabulary: the canonical path extends the raw query string or extends the
trimmed query string followed by `/`, and the row's full hash is present
and equal to the full hash of a distinct row anywhere in the store. -/
def dupUnderClaim (st : Store) (pfx : String) (f : FileRow) : Bool :=
  (strStartsWith pfx f.canonical_path ||
    strStartsWith (trimEndSlashes pfx ++ "/") f.canonical_path) &&
  f.full_hash.isSome &&
  decide (∃ G ∈ st.files, G.id ≠ f.id ∧ G.full_hash = f.full_hash)

/-- Maximum of a group's score list with the `i64::MIN` default, the value
`max_score` of src/remove.rs line 101. -/
def groupMaxScore (gm : String → String → Bool) (rules : List RuleRow)
    (gs : GroupState) : Int :=
  listMaxD (gs.files.map (score gm rules)) i64Min

/-- Store states reachable through the program's store operations.  The
constructors list every mutating call site: `Db::open` creating the empty
schema; the scanner's `upsert_directory`, `set_directory_scanned`,
`delete_file`, `delete_directory_tree` and `upsert_file` — the latter
always invoked with a computed fast hash and `None` for the full hash
(src/scan.rs lines 160 and 170); the stage-2 `update_full_hash`, invoked
only on rows returned by `candidates_needing_full_hash` (src/scan.rs lines
181-194, the id's fast hash being untouched by the updates in between);
and the remover's `delete_file_by_path` and `insert_rule`.  The list
command performs no writes. -/
inductive Reachable : Store → Prop where
  | init : Reachable emptyStore
  | upsertDir (s : Store) (p : String) :
      Reachable s → Reachable (upsert_directory s p).1
  | setScanned (s : Store) (did : Nat) (ts : Int) :
      Reachable s → Reachable (set_directory_scanned s did ts)
  | deleteFile (s : Store) (fid : Nat) :
      Reachable s → Reachable (delete_file s fid)
  | deleteByPath (s : Store) (p : String) :
      Reachable s → Reachable (delete_file_by_path s p)
  | deleteTree (s : Store) (p : String) :
      Reachable s → Reachable (delete_directory_tree s p)
  | insertRule (s : Store) (pat : String) (pr : Int) :
      Reachable s → Reachable (insert_rule s pat pr)
  | upsertScan (s s' : Store) (did : Nat) (name cpath : String)
      (size mt : Int) (fh : String) :
      Reachable s →
      upsert_file s did name cpath size mt (some fh) none = Except.ok s' →
      Reachable s'
  | updateFull (s : Store) (fid : Nat) (h : String) :
      Reachable s →
      (∃ c ∈ candidates_needing_full_hash s, c.id = fid) →
      Reachable (update_full_hash s fid h)

/-! Concrete fixtures used by the per-claim witnesses and
counterexamples. -/

/-- Store for the C1 witness: two rows sharing `(size, fast_hash)` with no
full hash. -/
def c1st : Store :=
  ⟨[⟨1, "/e", some 5⟩],
   [⟨1, 1, "b", "/e/b", 4, 9, some "h", none⟩,
    ⟨2, 1, "c", "/e/c", 4, 11, some "h", none⟩], []⟩

/-- Candidate row of the C1 witness. -/
def c1row : FileRow := ⟨1, 1, "b", "/e/b", 4, 9, some "h", none⟩

/-- Store for the C2 counterexample: two duplicate rows whose paths extend
the queried string without an intervening `/`. -/
def c2st : Store :=
  ⟨[], [⟨1, 1, "x", "/a/bc", 4, 0, none, some "H"⟩,
        ⟨2, 1, "y", "/a/bd", 4, 0, none, some "H"⟩], []⟩

/-- Store for the C2 witness: two duplicate rows below `/e`. -/
def c2wst : Store :=
  ⟨[], [⟨1, 1, "b", "/e/b", 4, 0, some "h", some "H"⟩,
        ⟨2, 1, "c", "/e/c", 4, 0, some "h", some "H"⟩], []⟩

/-- Matcher for the C5 fixtures: a pattern matches exactly its own text,
as a literal glob does. -/
def c5gm : String → String → Bool := fun pat path => pat = path

/-- Group state for the C5 fixtures: a fresh two-file group over the paths
`/a` and `/b`. -/
def c5gs : GroupState :=
  GroupState.new ⟨"H", [⟨1, 1, "x", "/a", 4, 0, some "f", some "H"⟩,
                        ⟨2, 1, "y", "/b", 4, 0, some "f", some "H"⟩]⟩

/-- Rule list for the C5 counterexample: one rule matching `/a` whose
priority is exactly `i64::MIN`. -/
def c5xrules : List RuleRow := [⟨1, "/a", -(2 ^ 63)⟩]

/-- Rule list for the C5 witness: one rule matching `/a` with priority 5. -/
def c5wrules : List RuleRow := [⟨1, "/a", 5⟩]

/-- Group for the remover fixtures: two files sharing full hash `H`. -/
def c6grp : DuplicateGroup :=
  ⟨"H", [⟨1, 1, "x", "/a", 4, 0, some "f", some "H"⟩,
         ⟨2, 1, "y", "/b", 4, 0, some "f", some "H"⟩]⟩

/-- World for the remover fixtures: the group's rows in the store, both
paths on the filesystem. -/
def c6w : World :=
  ⟨⟨[⟨1, "/d", some 5⟩], c6grp.files, []⟩, ["/a", "/b"]⟩

/-- Matcher for the remover fixtures: nothing matches. -/
def c6gm : String → String → Bool := fun _ _ => false

/-- Decided group state for the C6 witness: keep `/a`, delete `/b`. -/
def c6gs : GroupState :=
  ⟨c6grp.files, [FileAction.keep, FileAction.delete], 0, none, "", "", ""⟩

/-- Configuration for the C6 witness: the decided group is being
presented. -/
def c6cfg : RemCfg := ⟨c6w, [], [c6grp], some c6gs⟩

/-- Key events for the C7 counterexample: open the add-rule prompt, type
pattern `x`, confirm, type priority `3`, confirm. -/
def c7keys : List Key :=
  [Key.char 'r', Key.char 'x', Key.enter, Key.char '3', Key.enter]

/-- Filesystem for the C8 fixtures: every directory read fails. -/
def c8fsMap : String → Option FsDir := fun _ => none

/-- Filesystem for the C8 counterexample: reading `/x` fails while `/y`
reads as empty. -/
def c8xfsMap : String → Option FsDir :=
  fun p => if p = "/y" then some ⟨[], []⟩ else none

/-- Store for the C3 counterexample: the re-scanned directory `/d` holds
one unchanged file, while `/e` holds two stage-2 candidate rows. -/
def c3xst : Store :=
  ⟨[⟨1, "/d", some 5⟩, ⟨2, "/e", some 5⟩],
   [⟨1, 1, "a", "/d/a", 3, 7, some "fa", none⟩,
    ⟨2, 2, "b", "/e/b", 4, 9, some "h", none⟩,
    ⟨3, 2, "c", "/e/c", 4, 11, some "h", none⟩], []⟩

/-- Filesystem for the C3 counterexample: `/d` enumerates its single
unchanged file. -/
def c3xfsMap : String → Option FsDir :=
  fun p => if p = "/d" then some ⟨[⟨"a", "/d/a", 3, 7⟩], []⟩ else none

/-- Actual outcome of the C3 counterexample re-scan: two full-hash
computations, the candidates' full hashes written, and the re-scanned
directory's `last_scanned` advanced. -/
def c3xout : ScanOut :=
  ⟨⟨[⟨1, "/d", some 100⟩, ⟨2, "/e", some 5⟩],
    [⟨1, 1, "a", "/d/a", 3, 7, some "fa", none⟩,
     ⟨2, 2, "b", "/e/b", 4, 9, some "h", some "F"⟩,
     ⟨3, 2, "c", "/e/c", 4, 11, some "h", some "F"⟩], []⟩, 0, 2, []⟩

/-- Store for the C3 witness: one scanned directory with one unchanged
file and no stage-2 candidates. -/
def c3wst : Store :=
  ⟨[⟨1, "/d", some 5⟩], [⟨1, 1, "a", "/d/a", 3, 7, some "fa", none⟩], []⟩

/-- Filesystem for the C3 witness. -/
def c3wfsMap : String → Option FsDir :=
  fun p => if p = "/d" then some ⟨[⟨"a", "/d/a", 3, 7⟩], []⟩ else none

/-- Store for the C9 witness: one row with both hashes present. -/
def c9st : Store :=
  ⟨[], [⟨1, 1, "a", "/d/a", 3, 7, some "f", some "H"⟩], []⟩

/-- Store for the C10 witness: directory `/d` holds a row named `a` whose
canonical path is `/x/a`. -/
def c10st : Store :=
  ⟨[⟨1, "/d", some 5⟩], [⟨1, 1, "a", "/x/a", 3, 7, some "f", none⟩], []⟩

/-- Filesystem for the C10 witness: `/d` now contains a file named `a`
with canonical path `/d/a` and fresh metadata. -/
def c10fsMap : String → Option FsDir :=
  fun p => if p = "/d" then some ⟨[⟨"a", "/d/a", 8, 9⟩], []⟩ else none

/-- First store of the C4 witness chain: one scanned row upserted into
the empty store. -/
def c4st1 : Store := ⟨[], [⟨1, 5, "a", "/x/a", 2, 0, some "h", none⟩], []⟩

/-- Second store of the C4 witness chain: a second row sharing the first
row's `(size, fast_hash)` pair. -/
def c4st2 : Store :=
  ⟨[], [⟨1, 5, "a", "/x/a", 2, 0, some "h", none⟩,
        ⟨2, 5, "b", "/x/b", 2, 0, some "h", none⟩], []⟩

/-- Final store of the C4 witness chain: the stage-2 pass writes the first
candidate's full hash. -/
def c4st3 : Store := update_full_hash c4st2 1 "F"

/-! General list lemmas used by several claims. -/

theorem one_lt_length_of_mem_ne {α : Type} {l : List α} {x y : α}
    (hx : x ∈ l) (hy : y ∈ l) (hxy : x ≠ y) : 1 < l.length := by
  match l with
  | [] => simp at hx
  | [a] =>
    simp at hx hy
    exact absurd (hx.trans hy.symm) hxy
  | a :: b :: t =>
    simp only [List.length_cons]
    omega

theorem exists_ne_of_nodup {α : Type} {l : List α} (hn : l.Nodup) {x : α}
    (hx : x ∈ l) (hl : 1 < l.length) : ∃ y ∈ l, y ≠ x := by
  match l with
  | [] => simp at hx
  | a :: t =>
    rcases List.nodup_cons.mp hn with ⟨ha, _⟩
    rcases List.mem_cons.mp hx with rfl | hxt
    · match t with
      | [] => simp at hl
      | b :: t2 =>
        refine ⟨b, by simp, fun hb => ha ?_⟩
        rw [← hb]
        exact List.mem_cons_self b t2
    · exact ⟨a, List.mem_cons_self a t, fun hax => ha (hax ▸ hxt)⟩

theorem one_lt_length_filter_iff {α : Type} {l : List α} (hn : l.Nodup)
    (p : α → Bool) {x : α} (hx : x ∈ l) (hpx : p x = true) :
    1 < (l.filter p).length ↔ ∃ y ∈ l, y ≠ x ∧ p y = true := by
  constructor
  · intro h
    have hxf : x ∈ l.filter p := List.mem_filter.mpr ⟨hx, hpx⟩
    obtain ⟨y, hyf, hyx⟩ := exists_ne_of_nodup (hn.filter p) hxf h
    obtain ⟨hyl, hpy⟩ := List.mem_filter.mp hyf
    exact ⟨y, hyl, hyx, hpy⟩
  · rintro ⟨y, hyl, hyx, hpy⟩
    exact one_lt_length_of_mem_ne (List.mem_filter.mpr ⟨hyl, hpy⟩)
      (List.mem_filter.mpr ⟨hx, hpx⟩) hyx

theorem row_eq_of_id_eq {st : Store} (hnd : IdsNodup st) {a b : FileRow}
    (ha : a ∈ st.files) (hb : b ∈ st.files) (hid : a.id = b.id) : a = b :=
  List.inj_on_of_nodup_map hnd ha hb hid

/-- C9: `update_fast_hash(id, digest)` sets the row's fast hash to the
digest, clears its full hash, and leaves every other field of that row,
every other file row, and the other tables unchanged. -/
theorem update_fast_hash_frame (st : Store) (fid : Nat) (d : String) :
    (update_fast_hash st fid d).directories = st.directories ∧
    (update_fast_hash st fid d).rules = st.rules ∧
    (update_fast_hash st fid d).files.length = st.files.length ∧
    ∀ i : Nat, ∀ f g : FileRow, st.files[i]? = some f →
      (update_fast_hash st fid d).files[i]? = some g →
      (g.id = f.id ∧ g.directory_id = f.directory_id ∧ g.name = f.name ∧
       g.canonical_path = f.canonical_path ∧ g.size = f.size ∧
       g.modified_at = f.modified_at ∧
       (f.id = fid → g.fast_hash = some d ∧ g.full_hash = none) ∧
       (f.id ≠ fid → g = f)) := by
  refine ⟨rfl, rfl, by simp [update_fast_hash], ?_⟩
  intro i f g hf hg
  have hmap : (update_fast_hash st fid d).files[i]? =
      Option.map (fun f => if f.id = fid then
        { f with fast_hash := some d, full_hash := none } else f)
        st.files[i]? := by
    simp [update_fast_hash]
  rw [hf, hg] at hmap
  simp only [Option.map_some', Option.some.injEq] at hmap
  by_cases hid : f.id = fid
  · simp only [hid, if_true] at hmap
    subst hmap
    simp [hid]
  · simp only [hid, if_false] at hmap
    subst hmap
    simp [hid]

/-- Witness for C9 at a concrete store: the updated row keeps its other
fields, gains the new fast hash and loses its full hash. -/
theorem update_fast_hash_frame_witness :
    c9st.files[0]? = some ⟨1, 1, "a", "/d/a", 3, 7, some "f", some "H"⟩ ∧
    (update_fast_hash c9st 1 "g").files[0]? =
      some ⟨1, 1, "a", "/d/a", 3, 7, some "g", none⟩ ∧
    (⟨1, 1, "a", "/d/a", 3, 7, some "g", none⟩ : FileRow).fast_hash = some "g" ∧
    (⟨1, 1, "a", "/d/a", 3, 7, some "g", none⟩ : FileRow).full_hash = none := by
  refine ⟨rfl, rfl, ?_, ?_⟩
  · exact ((update_fast_hash_frame c9st 1 "g").2.2.2 0 _ _ rfl rfl).2.2.2.2.2.2.1 rfl |>.1
  · exact ((update_fast_hash_frame c9st 1 "g").2.2.2 0 _ _ rfl rfl).2.2.2.2.2.2.1 rfl |>.2

/-- C1: `candidates_needing_full_hash` returns exactly the rows with no
full hash, a fast hash, positive size, and a distinct row sharing the same
`(size, fast_hash)` pair. -/
theorem candidates_needing_full_hash_iff (st : Store) (hnd : IdsNodup st)
    (F : FileRow) :
    F ∈ candidates_needing_full_hash st ↔
      (F ∈ st.files ∧ F.full_hash = none ∧ F.fast_hash.isSome = true ∧
       F.size > 0 ∧
       ∃ G ∈ st.files, G.id ≠ F.id ∧ G.fast_hash.isSome = true ∧
         G.size = F.size ∧ G.fast_hash = F.fast_hash) := by
  have hfn : st.files.Nodup := List.Nodup.of_map _ hnd
  unfold candidates_needing_full_hash
  rw [List.mem_filter]
  constructor
  · rintro ⟨hmem, hp⟩
    cases hfh : F.fast_hash with
    | none => simp [hfh] at hp
    | some h =>
      simp only [hfh, Option.isSome_some, Bool.and_eq_true,
        decide_eq_true_eq] at hp
      obtain ⟨⟨⟨hfull, _⟩, hsize⟩, hcnt⟩ := hp
      have hq : (fun g : FileRow =>
          g.fast_hash = some h && g.size = F.size) F = true := by
        simp [hfh]
      have hex := (one_lt_length_filter_iff hfn _ hmem hq).mp hcnt
      obtain ⟨G, hGmem, hGne, hGq⟩ := hex
      simp only [Bool.and_eq_true, decide_eq_true_eq] at hGq
      refine ⟨hmem, hfull, by simp [hfh], hsize,
        G, hGmem, fun hid => hGne (row_eq_of_id_eq hnd hGmem hmem hid),
        by simp [hGq.1], hGq.2, by simp [hGq.1, hfh]⟩
  · rintro ⟨hmem, hfull, hfast, hsize, G, hGmem, hGid, _, hGsize, hGfh⟩
    cases hfh : F.fast_hash with
    | none => rw [hfh] at hfast; simp at hfast
    | some h =>
      have hq : (fun g : FileRow =>
          g.fast_hash = some h && g.size = F.size) F = true := by
        simp [hfh]
      have hGq : (fun g : FileRow =>
          g.fast_hash = some h && g.size = F.size) G = true := by
        rw [hfh] at hGfh
        simp [hGfh, hGsize]
      have hcnt : 1 < (st.files.filter (fun g : FileRow =>
          g.fast_hash = some h && g.size = F.size)).length :=
        (one_lt_length_filter_iff hfn _ hmem hq).mpr
          ⟨G, hGmem, fun hGF => hGid (hGF ▸ rfl), hGq⟩
      refine ⟨hmem, ?_⟩
      simp only [hfh, Option.isSome_some, Bool.and_eq_true,
        decide_eq_true_eq]
      exact ⟨⟨⟨hfull, trivial⟩, hsize⟩, hcnt⟩

/-- Witness for C1 at a concrete store: a row of a shared `(size,
fast_hash)` pair with no full hash is returned. -/
theorem candidates_needing_full_hash_iff_witness :
    IdsNodup c1st ∧ c1row ∈ candidates_needing_full_hash c1st :=
  ⟨by unfold IdsNodup; decide,
   (candidates_needing_full_hash_iff c1st (by unfold IdsNodup; decide)
     c1row).mpr (by decide)⟩

/-- Counterexample for C2: with prefix `/a/b`, the rows at `/a/bc` and
`/a/bd` are counted by the source query (their paths extend the raw
prefix) although the claim admits only the prefix itself or paths
extending it followed by `/`, which here select nothing. -/
theorem duplicate_stats_under_cex :
    duplicate_stats_under c2st "/a/b" ≠ duplicate_stats_under_spec c2st "/a/b" := by
  decide

/-- C2 (amended): `duplicate_stats_under(prefix)` counts and sizes exactly
the rows whose canonical path begins with the raw prefix, or with the
prefix trimmed of trailing slashes followed by `/`, and whose full hash is
present and shared with a distinct row anywhere in the store. -/
theorem duplicate_stats_under_char (st : Store) (pfx : String)
    (hnd : IdsNodup st) :
    duplicate_stats_under st pfx =
      (((st.files.filter (dupUnderClaim st pfx)).length : Int),
       ((st.files.filter (dupUnderClaim st pfx)).map (·.size)).sum) := by
  have hfn : st.files.Nodup := List.Nodup.of_map _ hnd
  have hcong : st.files.filter (dupUnderPred st pfx) =
      st.files.filter (dupUnderClaim st pfx) := by
    apply List.filter_congr
    intro f hf
    unfold dupUnderPred dupUnderClaim
    cases hfull : f.full_hash with
    | none => simp [hfull]
    | some h =>
      simp only [hfull, Option.isSome_some, Bool.true_and, Bool.and_true]
      have hshared : fullHashShared st h =
          decide (∃ G ∈ st.files, G.id ≠ f.id ∧ G.full_hash = some h) := by
        unfold fullHashShared
        have hpf : (fun g : FileRow => decide (g.full_hash = some h)) f = true := by
          simp [hfull]
        have hiff := one_lt_length_filter_iff hfn
          (fun g : FileRow => decide (g.full_hash = some h)) hf hpf
        rw [decide_eq_decide]
        rw [gt_iff_lt, hiff]
        constructor
        · rintro ⟨G, hGmem, hGne, hGp⟩
          simp only [decide_eq_true_eq] at hGp
          exact ⟨G, hGmem, fun hid => hGne (row_eq_of_id_eq hnd hGmem hf hid), hGp⟩
        · rintro ⟨G, hGmem, hGid, hGfh⟩
          exact ⟨G, hGmem, fun hGF => hGid (hGF ▸ rfl), by simp [hGfh]⟩
      rw [hshared]
  unfold duplicate_stats_under
  rw [hcong]

/-- Witness for C2 (amended) at a concrete store: the two duplicate rows
below `/e` are counted with their total size. -/
theorem duplicate_stats_under_char_witness :
    IdsNodup c2wst ∧ duplicate_stats_under c2wst "/e" = (2, 8) := by
  refine ⟨by unfold IdsNodup; decide, ?_⟩
  rw [duplicate_stats_under_char c2wst "/e" (by unfold IdsNodup; decide)]
  decide

theorem apply_rules_def (gm : String → String → Bool) (rules : List RuleRow)
    (gs : GroupState) :
    apply_rules gm rules gs =
      if rules = [] then gs
      else if ((gs.files.map (score gm rules)).filter
          (fun s => s = groupMaxScore gm rules gs)).length = 1 then
        { gs with
          actions := (gs.files.map (score gm rules)).map (fun s =>
            if s = groupMaxScore gm rules gs then FileAction.keep
            else FileAction.delete)
          status_msg := "Auto-resolved by priority rule." }
      else gs := rfl

/-- Counterexample for C5: one rule matching only `/a` with priority
exactly `i64::MIN`.  Under the claim's scores the file at `/a` scores
`i64::MIN` while the unmatched file at `/b` scores negative infinity, a
unique maximum that decides the group; the source assigns both files the
sentinel `i64::MIN`, sees a tie, and leaves the actions untouched. -/
theorem apply_rules_cex :
    (apply_rules c5gm c5xrules c5gs).actions ≠
      (apply_rules_spec c5gm c5xrules c5gs).actions := by
  decide

/-- C5 (amended): auto-resolution scores each file as the maximum priority
of the matching rules with `i64::MIN` as the no-match sentinel; with a
nonempty rule list, when exactly one file attains the maximum score that
file becomes `Keep` and the others `Delete`, and otherwise — as always
with an empty rule list — the state is untouched.  The outcome is a
function of the matcher, the rule list and the group state, so it is
deterministic. -/
theorem apply_rules_char (gm : String → String → Bool) (rules : List RuleRow)
    (gs : GroupState) :
    (rules = [] → apply_rules gm rules gs = gs) ∧
    (rules ≠ [] →
      (gs.files.countP (fun f =>
          decide (score gm rules f = groupMaxScore gm rules gs)) = 1 →
        apply_rules gm rules gs =
          { gs with
            actions := gs.files.map (fun f =>
              if score gm rules f = groupMaxScore gm rules gs then
                FileAction.keep
              else FileAction.delete)
            status_msg := "Auto-resolved by priority rule." }) ∧
      (gs.files.countP (fun f =>
          decide (score gm rules f = groupMaxScore gm rules gs)) ≠ 1 →
        apply_rules gm rules gs = gs)) := by
  have hcnt : ((gs.files.map (score gm rules)).filter
      (fun s => s = groupMaxScore gm rules gs)).length =
      gs.files.countP (fun f =>
        decide (score gm rules f = groupMaxScore gm rules gs)) := by
    rw [← List.countP_eq_length_filter, List.countP_map]
    rfl
  have hact : (gs.files.map (score gm rules)).map
      (fun s => if s = groupMaxScore gm rules gs then FileAction.keep
        else FileAction.delete) =
      gs.files.map (fun f =>
        if score gm rules f = groupMaxScore gm rules gs then FileAction.keep
        else FileAction.delete) := by
    rw [List.map_map]
    rfl
  refine ⟨fun h => by rw [apply_rules_def, if_pos h], fun hne => ?_⟩
  rw [apply_rules_def, if_neg hne, hcnt, hact]
  constructor
  · intro h1
    rw [if_pos h1]
  · intro h1
    rw [if_neg h1]

/-- Witness for C5 (amended) at a concrete group: one rule of priority 5
matching only `/a` gives a unique maximum, so `/a` is kept and `/b`
deleted. -/
theorem apply_rules_char_witness :
    c5wrules ≠ [] ∧
    c5gs.files.countP (fun f =>
      decide (score c5gm c5wrules f = groupMaxScore c5gm c5wrules c5gs)) = 1 ∧
    (apply_rules c5gm c5wrules c5gs).actions =
      [FileAction.keep, FileAction.delete] := by
  refine ⟨by decide, by decide, ?_⟩
  have h := ((apply_rules_char c5gm c5wrules c5gs).2 (by decide)).1 (by decide)
  rw [h]
  decide

/-- Counterexample for C8: a readdir failure on the dequeued directory
`/x` aborts the whole scan instead of being logged and skipped — the
remaining queue entry `/y` is never processed and `/y` is never recorded
in the store. -/
theorem scan_readdir_abort_cex :
    scanRunQueue true true (fun _ => some "f") (fun _ => some "F") c8xfsMap 0
      emptyStore ["/x", "/y"] = Except.error "reading directory /x" := by
  rfl

/-- C8 (amended): a readdir failure while enumerating a dequeued directory
that is actually re-read (here under `--rescan`) aborts the whole scan,
exactly like a store error; the remaining queue is not processed. -/
theorem scan_readdir_abort (hidden : Bool)
    (fastH fullH : String → Option String) (fsMap : String → Option FsDir)
    (now : Int) (st : Store) (dp : String) (rest : List String)
    (hfs : fsMap dp = none) :
    scanRunQueue hidden true fastH fullH fsMap now st (dp :: rest) =
      Except.error ("reading directory " ++ dp) := by
  simp [scanRunQueue, scanDirStep, hfs]

/-- Witness for C8 (amended) at a concrete queue: the failing head aborts
the run. -/
theorem scan_readdir_abort_witness :
    c8fsMap "/bad" = none ∧
    scanRunQueue true true (fun _ => some "f") (fun _ => some "F") c8fsMap 0
      emptyStore ["/bad", "/ok"] = Except.error "reading directory /bad" :=
  ⟨rfl, scan_readdir_abort true (fun _ => some "f") (fun _ => some "F")
    c8fsMap 0 emptyStore "/bad" ["/ok"] rfl⟩

/-- C10: when a row with the same `(directory_id, name)` but a different
canonical path exists, `upsert_file` returns an error — the conflict
clause only resolves canonical-path collisions, so the
`UNIQUE(directory_id, name)` constraint fails the statement whether the
insert or the conflict-clause update hits it — and an error from a
directory's scan step aborts the whole scan. -/
theorem upsert_file_conflict_aborts (st : Store) (did : Nat)
    (name cpath : String) (size mt : Int) (fh fu : Option String)
    (hnd : IdsNodup st)
    (hr : ∃ r ∈ st.files, r.directory_id = did ∧ r.name = name ∧
      r.canonical_path ≠ cpath) :
    (∃ e, upsert_file st did name cpath size mt fh fu = Except.error e) ∧
    (∀ (hidden rescan : Bool) (fastH fullH : String → Option String)
       (fsMap : String → Option FsDir) (now : Int) (st2 : Store)
       (dp : String) (rest : List String) (e : String),
      scanDirStep hidden false rescan fastH fullH fsMap now st2 dp =
        Except.error e →
      scanRunQueue hidden rescan fastH fullH fsMap now st2 (dp :: rest) =
        Except.error e) := by
  constructor
  · obtain ⟨r, hrmem, hdid, hname, hcp⟩ := hr
    unfold upsert_file
    split
    next r2 hfind =>
      have hr2p := List.find?_some hfind
      have hr2mem := List.mem_of_find?_eq_some hfind
      simp only [decide_eq_true_eq] at hr2p
      rw [if_pos]
      · exact ⟨_, rfl⟩
      · rw [List.any_eq_true]
        refine ⟨r, hrmem, ?_⟩
        have hne : r.id ≠ r2.id := fun hid => hcp (by
          have hrr := row_eq_of_id_eq hnd hrmem hr2mem hid
          rw [hrr, hr2p])
        simp [hne, hdid, hname]
    next hfind =>
      rw [if_pos]
      · exact ⟨_, rfl⟩
      · rw [List.any_eq_true]
        exact ⟨r, hrmem, by simp [hdid, hname]⟩
  · intro hidden rescan fastH fullH fsMap now st2 dp rest e hstep
    unfold scanRunQueue
    rw [hstep]

/-- Witness for C10 at a concrete store: directory `/d` holds a row named
`a` at canonical path `/x/a`; upserting `(1, "a", "/d/a")` errors, and a
scan of `/d` that re-hashes that changed file aborts with the constraint
error. -/
theorem upsert_file_conflict_aborts_witness :
    IdsNodup c10st ∧
    (∃ r ∈ c10st.files, r.directory_id = 1 ∧ r.name = "a" ∧
      r.canonical_path ≠ "/d/a") ∧
    (∃ e, upsert_file c10st 1 "a" "/d/a" 8 9 (some "F") none =
      Except.error e) ∧
    scanRunQueue true true (fun _ => some "F") (fun _ => some "G") c10fsMap 0
      c10st ["/d"] =
      Except.error "UNIQUE constraint failed: files.directory_id, files.name" := by
  refine ⟨by unfold IdsNodup; decide, by decide, ?_, ?_⟩
  · exact (upsert_file_conflict_aborts c10st 1 "a" "/d/a" 8 9 (some "F") none
      (by unfold IdsNodup; decide) (by decide)).1
  · exact (upsert_file_conflict_aborts c10st 1 "a" "/d/a" 8 9 (some "F") none
      (by unfold IdsNodup; decide) (by decide)).2 true true
      (fun _ => some "F") (fun _ => some "G") c10fsMap 0 c10st "/d" [] _ rfl

theorem deleteFold_id (hidden : Bool) (fsNames : List String)
    (L : List FileRow) (st : Store)
    (h : ∀ r ∈ L, (!hidden && isHidden r.name) = true ∨
      fsNames.any (fun n => n = r.name) = true) :
    deletePass hidden L fsNames st = st := by
  induction L generalizing st with
  | nil => rfl
  | cons r t ih =>
    unfold deletePass at ih ⊢
    rw [List.foldl_cons]
    by_cases hc1 : (!hidden && isHidden r.name) = true
    · rw [if_pos hc1]
      exact ih st (fun x hx => h x (List.mem_cons_of_mem r hx))
    · rcases h r (List.mem_cons_self r t) with h1 | h2
      · exact absurd h1 hc1
      · rw [if_neg hc1, if_pos h2]
        exact ih st (fun x hx => h x (List.mem_cons_of_mem r hx))

theorem subdirFold_id (fsSubdirs : List String)
    (L : List DirectoryRow) (st : Store)
    (h : ∀ c ∈ L, fsSubdirs.any (fun n => n = c.canonical_path) = true) :
    L.foldl (fun s child =>
      if fsSubdirs.any (fun n => n = child.canonical_path) then s
      else delete_directory_tree s child.canonical_path) st = st := by
  induction L generalizing st with
  | nil => rfl
  | cons c t ih =>
    rw [List.foldl_cons, if_pos (h c (List.mem_cons_self c t))]
    exact ih st (fun x hx => h x (List.mem_cons_of_mem c hx))

theorem subdirPass_id (dp : String) (fsSubdirs : List String) (st : Store)
    (h : ∀ c ∈ child_directories st dp,
      fsSubdirs.any (fun n => n = c.canonical_path) = true) :
    subdirPass dp fsSubdirs st = st :=
  subdirFold_id fsSubdirs (child_directories st dp) st h

theorem filePass_id (fastH : String → Option String) (did : Nat)
    (dbFiles : List FileRow) (fsFiles : List FsFile) (st : Store)
    (h : ∀ f ∈ fsFiles, ∃ r, dbFiles.find? (fun r => r.name = f.name) = some r ∧
      r.size = f.size ∧ r.modified_at = f.mtime) :
    filePass fastH did dbFiles fsFiles st = Except.ok (st, 0) := by
  induction fsFiles with
  | nil => rfl
  | cons f t ih =>
    obtain ⟨r, hfind, hsz, hmt⟩ := h f (List.mem_cons_self f t)
    unfold filePass at ih ⊢
    rw [List.foldlM_cons]
    simp only [hfind]
    rw [if_pos (by simp [hsz, hmt])]
    simpa using ih (fun x hx => h x (List.mem_cons_of_mem f hx))

theorem fullFold_count (fullH : String → Option String) (L : List FileRow)
    (s : Store) (n : Nat) :
    (L.foldl (fun acc r =>
      match fullH r.canonical_path with
      | some fh => (update_full_hash acc.1 r.id fh, acc.2 + 1)
      | none => (acc.1, acc.2 + 1)) (s, n)).2 = n + L.length := by
  induction L generalizing s n with
  | nil => simp
  | cons r t ih =>
    rw [List.foldl_cons]
    cases hfo : fullH r.canonical_path
    · rw [ih]
      simp [List.length_cons]
      omega
    · rw [ih]
      simp [List.length_cons]
      omega

theorem fullPass_count (fullH : String → Option String) (st : Store) :
    (fullPass fullH st).2 = (candidates_needing_full_hash st).length := by
  unfold fullPass
  rw [fullFold_count]
  simp

theorem fullPass_of_no_candidates (fullH : String → Option String)
    (st : Store) (h : candidates_needing_full_hash st = []) :
    fullPass fullH st = (st, 0) := by
  unfold fullPass
  rw [h]
  rfl



/-- Counterexample for C3: `/d` is re-scanned with every file unchanged
(identical `(size, modified_at)`), yet the scan performs two full-hash
computations for the store-wide candidates under `/e` and the store is not
bit-identical afterwards — the candidates gain full hashes and `/d`'s
`last_scanned` is advanced to the scan time. -/
theorem rescan_unchanged_cex :
    scanDirStep true false true (fun _ => some "f") (fun _ => some "F")
      c3xfsMap 100 c3xst "/d" = Except.ok c3xout ∧
    c3xout.fullN ≠ 0 ∧ c3xout.store ≠ c3xst := by
  exact ⟨rfl, by decide, by decide⟩

/-- C3 (amended): re-scanning a directory whose files are all unchanged
performs zero fast-hash computations and exactly one full-hash computation
per store-wide stage-2 candidate; when no candidate exists the scan also
performs zero full-hash computations and the only store change is the
directory's `last_scanned` timestamp, set to the scan time. -/
theorem rescan_unchanged_frame (hidden recursive : Bool)
    (fastH fullH : String → Option String) (fsMap : String → Option FsDir)
    (now : Int) (st : Store) (dp : String) (D : DirectoryRow) (d : FsDir)
    (hdir : get_directory st dp = some D)
    (hfs : fsMap dp = some d)
    (hex : ∀ f ∈ d.files, ∃ r ∈ st.files,
      r.directory_id = D.id ∧ r.name = f.name)
    (hunch : ∀ f ∈ d.files, ∀ r ∈ st.files, r.directory_id = D.id →
      r.name = f.name → r.size = f.size ∧ r.modified_at = f.mtime)
    (hnodel : ∀ r ∈ st.files, r.directory_id = D.id →
      ∃ f ∈ d.files, f.name = r.name)
    (hsub : ∀ c ∈ child_directories st dp, c.canonical_path ∈ d.subdirs) :
    scanDirStep hidden recursive true fastH fullH fsMap now st dp =
      Except.ok ⟨set_directory_scanned (fullPass fullH st).1 D.id now, 0,
        (candidates_needing_full_hash st).length,
        if recursive then d.subdirs else []⟩ ∧
    (candidates_needing_full_hash st = [] →
      scanDirStep hidden recursive true fastH fullH fsMap now st dp =
        Except.ok ⟨set_directory_scanned st D.id now, 0, 0,
          if recursive then d.subdirs else []⟩) := by
  have hup : upsert_directory st dp = (st, D.id) := by
    unfold upsert_directory
    rw [hdir]
  have hdel : deletePass hidden (files_in_directory st D.id)
      (d.files.map (·.name)) st = st := by
    apply deleteFold_id
    intro r hr
    right
    obtain ⟨hrmem, hrdid⟩ := List.mem_filter.mp hr
    simp only [decide_eq_true_eq] at hrdid
    obtain ⟨f, hfmem, hfname⟩ := hnodel r hrmem hrdid
    rw [List.any_eq_true]
    exact ⟨f.name, List.mem_map_of_mem _ hfmem, by simp [hfname]⟩
  have hsubp : subdirPass dp d.subdirs st = st := by
    apply subdirPass_id
    intro c hc
    rw [List.any_eq_true]
    exact ⟨c.canonical_path, hsub c hc, by simp⟩
  have hfp : filePass fastH D.id (files_in_directory st D.id) d.files st =
      Except.ok (st, 0) := by
    apply filePass_id
    intro f hf
    obtain ⟨r, hrmem, hrdid, hrname⟩ := hex f hf
    have hrdb : r ∈ files_in_directory st D.id :=
      List.mem_filter.mpr ⟨hrmem, by simp [hrdid]⟩
    have hfsome : ((files_in_directory st D.id).find?
        (fun r => r.name = f.name)).isSome := by
      rw [List.find?_isSome]
      exact ⟨r, hrdb, by simp [hrname]⟩
    obtain ⟨r0, hr0⟩ := Option.isSome_iff_exists.mp hfsome
    have hr0mem := List.mem_of_find?_eq_some hr0
    have hr0name := List.find?_some hr0
    simp only [decide_eq_true_eq] at hr0name
    obtain ⟨hr0m, hr0did⟩ := List.mem_filter.mp hr0mem
    simp only [decide_eq_true_eq] at hr0did
    obtain ⟨hsz, hmt⟩ := hunch f hf r0 hr0m hr0did hr0name
    exact ⟨r0, hr0, hsz, hmt⟩
  constructor
  · unfold scanDirStep
    rw [hup]
    simp only [hdir, Option.getD_some, Bool.not_true, Bool.and_false,
      Bool.false_eq_true, if_false, hfs]
    simp only [hdel, hsubp, hfp]
    rw [fullPass_count]
  · intro hcand
    unfold scanDirStep
    rw [hup]
    simp only [hdir, Option.getD_some, Bool.not_true, Bool.and_false,
      Bool.false_eq_true, if_false, hfs]
    simp only [hdel, hsubp, hfp]
    rw [fullPass_of_no_candidates fullH st hcand]

/-- Witness for C3 (amended) at a concrete store with no candidates: the
re-scan returns the store unchanged but for `last_scanned`, with zero hash
computations. -/
theorem rescan_unchanged_frame_witness :
    candidates_needing_full_hash c3wst = [] ∧
    scanDirStep true false true (fun _ => some "f") (fun _ => some "F")
      c3wfsMap 100 c3wst "/d" =
      Except.ok ⟨set_directory_scanned c3wst 1 100, 0, 0, []⟩ :=
  ⟨rfl,
   (rescan_unchanged_frame true false (fun _ => some "f") (fun _ => some "F")
     c3wfsMap 100 c3wst "/d" ⟨1, "/d", some 5⟩ ⟨[⟨"a", "/d/a", 3, 7⟩], []⟩
     rfl rfl (by decide) (by decide) (by decide) (by decide)).2 rfl⟩

theorem remAdvance_world (gm : String → String → Bool) (w : World)
    (rules : List RuleRow) (rest : List DuplicateGroup) :
    (remAdvance gm w rules rest).world = w := by
  cases rest <;> rfl

set_option maxHeartbeats 2000000 in
theorem groupStep_store_frame (gm : String → String → Bool) (st : Store)
    (rules : List RuleRow) (gs : GroupState) (k : Key) :
    (groupStep gm st rules gs k).store.files = st.files ∧
    (groupStep gm st rules gs k).store.directories = st.directories := by
  obtain ⟨fls, acts, sel, imode, rpat, rpri, smsg⟩ := gs
  unfold groupStep
  cases imode with
  | some m => cases m <;> cases k <;> (repeat' split) <;> exact ⟨rfl, rfl⟩
  | none => cases k <;> (repeat' split) <;> exact ⟨rfl, rfl⟩

set_option maxHeartbeats 2000000 in
theorem groupStep_confirm (gm : String → String → Bool) (st : Store)
    (rules : List RuleRow) (gs : GroupState) (k : Key)
    (h : (groupStep gm st rules gs k).res = some GroupResult.confirm) :
    is_decided gs = true ∧ (groupStep gm st rules gs k).gs = gs := by
  obtain ⟨fls, acts, sel, imode, rpat, rpri, smsg⟩ := gs
  unfold groupStep at h ⊢
  cases imode with
  | some m =>
    exfalso
    cases m <;> cases k <;> (repeat' split at h) <;> simp_all
  | none =>
    cases k <;> (repeat' split at h) <;> simp_all

theorem remStep_cases (gm : String → String → Bool) (dry : Bool) (w : World)
    (rules : List RuleRow) (gs : GroupState) (g : DuplicateGroup)
    (rest : List DuplicateGroup) (k : Key) :
    remStep gm dry ⟨w, rules, g :: rest, some gs⟩ k =
      (match (groupStep gm w.store rules gs k).res with
       | none => ⟨⟨(groupStep gm w.store rules gs k).store, w.fs⟩,
                  (groupStep gm w.store rules gs k).rules, g :: rest,
                  some (groupStep gm w.store rules gs k).gs⟩
       | some GroupResult.confirm =>
           remAdvance gm (commitGroup dry (groupStep gm w.store rules gs k).gs
             ⟨(groupStep gm w.store rules gs k).store, w.fs⟩)
             (groupStep gm w.store rules gs k).rules rest
       | some GroupResult.skip =>
           remAdvance gm ⟨(groupStep gm w.store rules gs k).store, w.fs⟩
             (groupStep gm w.store rules gs k).rules rest
       | some GroupResult.quit =>
           ⟨⟨(groupStep gm w.store rules gs k).store, w.fs⟩,
            (groupStep gm w.store rules gs k).rules, [], none⟩) := rfl

theorem remStep_on_none (gm : String → String → Bool) (dry : Bool)
    (w : World) (rules : List RuleRow) (gs : GroupState) (g : DuplicateGroup)
    (rest : List DuplicateGroup) (k : Key)
    (hres : (groupStep gm w.store rules gs k).res = none) :
    remStep gm dry ⟨w, rules, g :: rest, some gs⟩ k =
      ⟨⟨(groupStep gm w.store rules gs k).store, w.fs⟩,
       (groupStep gm w.store rules gs k).rules, g :: rest,
       some (groupStep gm w.store rules gs k).gs⟩ := by
  rw [remStep_cases, hres]

theorem remStep_on_confirm (gm : String → String → Bool) (dry : Bool)
    (w : World) (rules : List RuleRow) (gs : GroupState) (g : DuplicateGroup)
    (rest : List DuplicateGroup) (k : Key)
    (hres : (groupStep gm w.store rules gs k).res = some GroupResult.confirm) :
    remStep gm dry ⟨w, rules, g :: rest, some gs⟩ k =
      remAdvance gm (commitGroup dry (groupStep gm w.store rules gs k).gs
        ⟨(groupStep gm w.store rules gs k).store, w.fs⟩)
        (groupStep gm w.store rules gs k).rules rest := by
  rw [remStep_cases, hres]

theorem remStep_on_skip (gm : String → String → Bool) (dry : Bool)
    (w : World) (rules : List RuleRow) (gs : GroupState) (g : DuplicateGroup)
    (rest : List DuplicateGroup) (k : Key)
    (hres : (groupStep gm w.store rules gs k).res = some GroupResult.skip) :
    remStep gm dry ⟨w, rules, g :: rest, some gs⟩ k =
      remAdvance gm ⟨(groupStep gm w.store rules gs k).store, w.fs⟩
        (groupStep gm w.store rules gs k).rules rest := by
  rw [remStep_cases, hres]

theorem remStep_on_quit (gm : String → String → Bool) (dry : Bool)
    (w : World) (rules : List RuleRow) (gs : GroupState) (g : DuplicateGroup)
    (rest : List DuplicateGroup) (k : Key)
    (hres : (groupStep gm w.store rules gs k).res = some GroupResult.quit) :
    remStep gm dry ⟨w, rules, g :: rest, some gs⟩ k =
      ⟨⟨(groupStep gm w.store rules gs k).store, w.fs⟩,
       (groupStep gm w.store rules gs k).rules, [], none⟩ := by
  rw [remStep_cases, hres]

/-- C6: the remover never performs a group's filesystem removals and store
deletions unless the presented group is decided — at least one `Keep` and
at least one `Delete` — at commit time: a remover step that changes the
filesystem or the store's file rows was taken from a decided group
state. -/
theorem remover_commit_needs_decided (gm : String → String → Bool)
    (dry : Bool) (c : RemCfg) (k : Key) (gs : GroupState)
    (hcur : c.cur = some gs)
    (hch : (remStep gm dry c k).world.fs ≠ c.world.fs ∨
           (remStep gm dry c k).world.store.files ≠ c.world.store.files) :
    is_decided gs = true := by
  obtain ⟨w, rules, pending, cur⟩ := c
  have hcur' : cur = some gs := hcur
  subst hcur'
  rcases pending with _ | ⟨g, rest⟩
  · have hid : remStep gm dry ⟨w, rules, [], some gs⟩ k =
        ⟨w, rules, [], some gs⟩ := rfl
    rw [hid] at hch
    rcases hch with h | h <;> exact absurd rfl h
  · have hframe := groupStep_store_frame gm w.store rules gs k
    rcases hres : (groupStep gm w.store rules gs k).res with _ | r
    · rw [remStep_on_none gm dry w rules gs g rest k hres] at hch
      rcases hch with h | h
      · exact absurd rfl h
      · exact absurd hframe.1 h
    · cases r with
      | confirm => exact (groupStep_confirm gm w.store rules gs k hres).1
      | skip =>
        rw [remStep_on_skip gm dry w rules gs g rest k hres,
          remAdvance_world] at hch
        rcases hch with h | h
        · exact absurd rfl h
        · exact absurd hframe.1 h
      | quit =>
        rw [remStep_on_quit gm dry w rules gs g rest k hres] at hch
        rcases hch with h | h
        · exact absurd rfl h
        · exact absurd hframe.1 h

/-- Witness for C6 at a concrete configuration: committing the decided
group with Space removes a file from the filesystem, and the theorem
reports the group decided. -/
theorem remover_commit_needs_decided_witness :
    c6cfg.cur = some c6gs ∧ is_decided c6gs = true :=
  ⟨rfl, remover_commit_needs_decided c6gm false c6cfg (Key.char ' ') c6gs rfl
    (Or.inl (by decide))⟩

theorem remStep_dry_frame (gm : String → String → Bool) (c : RemCfg)
    (k : Key) :
    (remStep gm true c k).world.fs = c.world.fs ∧
    (remStep gm true c k).world.store.files = c.world.store.files ∧
    (remStep gm true c k).world.store.directories =
      c.world.store.directories := by
  obtain ⟨w, rules, pending, cur⟩ := c
  rcases cur with _ | gs
  · exact ⟨rfl, rfl, rfl⟩
  · rcases pending with _ | ⟨g, rest⟩
    · exact ⟨rfl, rfl, rfl⟩
    · have hframe := groupStep_store_frame gm w.store rules gs k
      rcases hres : (groupStep gm w.store rules gs k).res with _ | r
      · rw [remStep_on_none gm true w rules gs g rest k hres]
        exact ⟨rfl, hframe.1, hframe.2⟩
      · cases r with
        | confirm =>
          have hcom : commitGroup true (groupStep gm w.store rules gs k).gs
              ⟨(groupStep gm w.store rules gs k).store, w.fs⟩ =
              ⟨(groupStep gm w.store rules gs k).store, w.fs⟩ := rfl
          rw [remStep_on_confirm gm true w rules gs g rest k hres, hcom,
            remAdvance_world]
          exact ⟨rfl, hframe.1, hframe.2⟩
        | skip =>
          rw [remStep_on_skip gm true w rules gs g rest k hres,
            remAdvance_world]
          exact ⟨rfl, hframe.1, hframe.2⟩
        | quit =>
          rw [remStep_on_quit gm true w rules gs g rest k hres]
          exact ⟨rfl, hframe.1, hframe.2⟩

/-- Counterexample for C7: a dry run in which the operator adds a rule
(`r`, pattern `x`, priority `3`) mutates the store — `insert_rule` is
executed regardless of `dry_run` — so a complete dry run does not leave
the store unchanged. -/
theorem dry_run_cex :
    (remRun c6gm true (remInit c6gm c6w [] [c6grp]) c7keys).world.store ≠
      c6w.store := by
  decide

/-- C7 (amended): a dry run leaves the filesystem, the store's file rows
and its directory rows unchanged over any complete run — for every
committed group both the removal and the row deletion are skipped — while
the rules table may still grow when the operator adds a rule. -/
theorem dry_run_frame (gm : String → String → Bool) (c : RemCfg)
    (keys : List Key) :
    (remRun gm true c keys).world.fs = c.world.fs ∧
    (remRun gm true c keys).world.store.files = c.world.store.files ∧
    (remRun gm true c keys).world.store.directories =
      c.world.store.directories := by
  induction keys generalizing c with
  | nil => exact ⟨rfl, rfl, rfl⟩
  | cons k ks ih =>
    have h1 := remStep_dry_frame gm c k
    have h2 := ih (remStep gm true c k)
    have hfold : remRun gm true c (k :: ks) =
        remRun gm true (remStep gm true c k) ks := rfl
    rw [hfold]
    exact ⟨h2.1.trans h1.1, h2.2.1.trans h1.2.1, h2.2.2.trans h1.2.2⟩

theorem le_foldl_max (l : List Nat) (a : Nat) : a ≤ l.foldl max a := by
  induction l generalizing a with
  | nil => exact Nat.le_refl a
  | cons b t ih => exact Nat.le_trans (Nat.le_max_left a b) (ih (max a b))

theorem mem_le_foldl_max {l : List Nat} {x : Nat} (a : Nat) (hx : x ∈ l) :
    x ≤ l.foldl max a := by
  induction l generalizing a with
  | nil => simp at hx
  | cons b t ih =>
    rcases List.mem_cons.mp hx with rfl | hxt
    · exact Nat.le_trans (Nat.le_max_right a x) (le_foldl_max t (max a x))
    · exact ih (max a b) hxt

theorem wf_files_eq {st st' : Store} (h : st'.files = st.files)
    (hwf : FileInv st ∧ IdsNodup st) : FileInv st' ∧ IdsNodup st' := by
  constructor
  · intro f hf
    rw [h] at hf
    exact hwf.1 f hf
  · unfold IdsNodup
    rw [h]
    exact hwf.2

theorem wf_filter (st : Store) (p : FileRow → Bool)
    (hwf : FileInv st ∧ IdsNodup st) :
    FileInv { st with files := st.files.filter p } ∧
    IdsNodup { st with files := st.files.filter p } := by
  constructor
  · intro f hf
    exact hwf.1 f (List.mem_of_mem_filter hf)
  · exact List.Nodup.sublist ((List.filter_sublist _).map _) hwf.2

theorem wf_update_full (st : Store) (fid : Nat) (h : String)
    (hwf : FileInv st ∧ IdsNodup st)
    (hfast : ∀ f ∈ st.files, f.id = fid → f.fast_hash.isSome = true) :
    FileInv (update_full_hash st fid h) ∧
    IdsNodup (update_full_hash st fid h) := by
  constructor
  · intro f' hf'
    unfold update_full_hash at hf'
    obtain ⟨f, hf, hgf⟩ := List.mem_map.mp hf'
    by_cases hid : f.id = fid
    · rw [if_pos hid] at hgf
      subst hgf
      intro _
      exact hfast f hf hid
    · rw [if_neg hid] at hgf
      subst hgf
      exact hwf.1 f hf
  · unfold IdsNodup update_full_hash
    have : (st.files.map (fun f =>
        if f.id = fid then { f with full_hash := some h } else f)).map (·.id) =
        st.files.map (·.id) := by
      rw [List.map_map]
      apply List.map_congr_left
      intro f _
      by_cases hid : f.id = fid <;> simp [hid]
    rw [this]
    exact hwf.2

theorem wf_upsert_file (st st' : Store) (did : Nat) (name cpath : String)
    (size mt : Int) (fh : Option String)
    (hok : upsert_file st did name cpath size mt fh none = Except.ok st')
    (hwf : FileInv st ∧ IdsNodup st) : FileInv st' ∧ IdsNodup st' := by
  unfold upsert_file at hok
  split at hok
  next r hfind =>
    split at hok
    · exact absurd hok (by simp)
    · simp only [Except.ok.injEq] at hok
      subst hok
      constructor
      · intro f' hf'
        obtain ⟨f, hf, hgf⟩ := List.mem_map.mp hf'
        by_cases hid : f.id = r.id
        · rw [if_pos hid] at hgf
          subst hgf
          intro hfull
          simp at hfull
        · rw [if_neg hid] at hgf
          subst hgf
          exact hwf.1 f hf
      · unfold IdsNodup
        have : (st.files.map (fun f =>
            if f.id = r.id then
              { f with directory_id := did, name := name, size := size,
                       modified_at := mt, fast_hash := fh,
                       full_hash := none } else f)).map (·.id) =
            st.files.map (·.id) := by
          rw [List.map_map]
          apply List.map_congr_left
          intro f _
          by_cases hid : f.id = r.id <;> simp [hid]
        rw [this]
        exact hwf.2
  next hfind =>
    split at hok
    · exact absurd hok (by simp)
    · simp only [Except.ok.injEq] at hok
      subst hok
      constructor
      · intro f' hf'
        simp only [List.mem_append, List.mem_singleton] at hf'
        rcases hf' with hf' | hf'
        · exact hwf.1 f' hf'
        · subst hf'
          intro hfull
          simp at hfull
      · unfold IdsNodup
        simp only [List.map_append, List.map_cons, List.map_nil]
        rw [List.nodup_append]
        refine ⟨hwf.2, List.nodup_singleton _, ?_⟩
        intro x hx hy
        simp only [List.mem_singleton] at hy
        subst hy
        have hle : maxId (st.files.map (·.id)) + 1 ≤
            maxId (st.files.map (·.id)) := mem_le_foldl_max 0 hx
        omega

theorem reachable_wf (s : Store) (h : Reachable s) :
    FileInv s ∧ IdsNodup s := by
  induction h with
  | init =>
    constructor
    · intro f hf
      simp [emptyStore] at hf
    · simp [IdsNodup, emptyStore]
  | upsertDir s p _ ih =>
    apply wf_files_eq _ ih
    unfold upsert_directory
    split <;> rfl
  | setScanned s did ts _ ih => exact wf_files_eq rfl ih
  | deleteFile s fid _ ih => exact wf_filter s _ ih
  | deleteByPath s p _ ih => exact wf_filter s _ ih
  | deleteTree s p _ ih => exact wf_filter s _ ih
  | insertRule s pat pr _ ih => exact wf_files_eq rfl ih
  | upsertScan s s' did name cpath size mt fh _ hok ih =>
    exact wf_upsert_file s s' did name cpath size mt (some fh) hok ih
  | updateFull s fid hh _ hcand ih =>
    apply wf_update_full s fid hh ih
    intro f hf hfid
    obtain ⟨c, hcmem, hcid⟩ := hcand
    obtain ⟨hcfiles, hcpred⟩ := List.mem_filter.mp hcmem
    have hceq : f = c := by
      apply List.inj_on_of_nodup_map ih.2 hf hcfiles
      rw [hfid, hcid]
    subst hceq
    simp only [Bool.and_eq_true] at hcpred
    exact hcpred.1.1.2

/-- C4: in every store state reachable through the program's operations,
a file row with a full hash also has a fast hash. -/
theorem reachable_full_implies_fast (s : Store) (h : Reachable s) :
    ∀ f ∈ s.files, f.full_hash.isSome = true → f.fast_hash.isSome = true :=
  (reachable_wf s h).1

theorem reachable_full_implies_fast_witness :
    Reachable c4st3 ∧
    (∀ f ∈ c4st3.files, f.full_hash.isSome = true →
      f.fast_hash.isSome = true) := by
  have r1 : Reachable c4st1 :=
    Reachable.upsertScan emptyStore c4st1 5 "a" "/x/a" 2 0 "h"
      Reachable.init (by rfl)
  have r2 : Reachable c4st2 :=
    Reachable.upsertScan c4st1 c4st2 5 "b" "/x/b" 2 0 "h" r1 (by rfl)
  have r3 : Reachable c4st3 :=
    Reachable.updateFull c4st2 1 "F" r2 (by decide)
  exact ⟨r3, reachable_full_implies_fast c4st3 r3⟩


end FDedupe
